import Mathlib

/-!
Verification of the documentation-hub HTML localization tool.

The development shallowly embeds the program's core logic: the key
flattener (`load_keys`), the dotted-key resolver (`get_actual_content`
and its `env`/`i18n` wrappers), the template-substitution step
(`replace_text_in_file` and the two passes of `main`), the language
discovery filter (`get_languages`) and the output-file naming rule
(`get_string_removed_dot_and_after`).

Modelling conventions:
- YAML data is the inductive `Val`: scalar leaves (strings, integers,
  booleans, null) and string-keyed nested mappings, the latter as
  association lists with the first binding winning on lookup (Python
  dicts have unique keys, so the two agree on loaded data).
- Python strings are Lean `String`s; the string primitives the source
  uses (`strip`, `split`, `join`, `replace`, `find`, `rfind`, `in`,
  `lower`, slicing) are modelled as executable functions on `List Char`.
- File-system state is passed explicitly (`PyFile`); `sys.exit(255)` and
  the missing-file early return are constructors of `ReplaceOutcome`.
- The embedding is total, so the source's defensive `try/except` in
  `get_actual_content` and the `TypeError` branches guarded by static
  types (`merge_args_to_key` on non-strings, `get_template_text` on an
  invalid mode) have no reachable counterpart.
-/

/-- Model of Python `sub in s` (substring containment) on character lists. -/
def isSubstrList (sub : List Char) : List Char → Bool
  | [] => sub.isEmpty
  | c :: rest => sub.isPrefixOf (c :: rest) || isSubstrList sub rest

/-- Model of Python `str.strip()` (ASCII whitespace at both ends). -/
def pyStrip (l : List Char) : List Char :=
  ((l.dropWhile Char.isWhitespace).reverse.dropWhile Char.isWhitespace).reverse

/-- Model of Python `str.strip('.')`. -/
def pyStripDots (l : List Char) : List Char :=
  ((l.dropWhile (fun c => c = '.')).reverse.dropWhile (fun c => c = '.')).reverse

/-- Model of Python `str.split('.')`: `"" ↦ [""]`, `"a..b" ↦ ["a","","b"]`. -/
def splitDots : List Char → List (List Char)
  | [] => [[]]
  | c :: rest =>
    if c = '.' then [] :: splitDots rest
    else
      match splitDots rest with
      | [] => [[c]]
      | p :: ps => (c :: p) :: ps

/-- Model of Python `'.'.join`. -/
def joinDots : List (List Char) → List Char
  | [] => []
  | [p] => p
  | p :: ps => p ++ '.' :: joinDots ps

/-- Scanner behind Python `str.replace` for a non-empty pattern `oldH :: oldT`:
left-to-right, non-overlapping occurrences. -/
def replaceAux (oldH : Char) (oldT new : List Char) : List Char → List Char
  | [] => []
  | c :: rest =>
    if (oldH :: oldT).isPrefixOf (c :: rest)
    then new ++ replaceAux oldH oldT new (rest.drop oldT.length)
    else c :: replaceAux oldH oldT new rest
termination_by l => l.length
decreasing_by
  all_goals simp only [List.length_drop, List.length_cons]
  all_goals omega

/-- Model of Python `s.replace(old, new)`; an empty `old` inserts `new`
between every character, as in Python. -/
def pyReplace (s old new : String) : String :=
  match old.data with
  | [] => String.mk (new.data ++ s.data.foldr (fun c acc => c :: (new.data ++ acc)) [])
  | h :: t => String.mk (replaceAux h t new.data s.data)

/-- First index of character `c`, the `Option`-valued core of `str.find`. -/
def pyFindAux (c : Char) : List Char → Option Nat
  | [] => none
  | x :: rest => if x = c then some 0 else (pyFindAux c rest).map (· + 1)

/-- Model of Python `s.find(c)` for a single character: first index, `-1` if absent. -/
def pyFind (s : String) (c : Char) : Int :=
  match pyFindAux c s.data with
  | none => -1
  | some n => n

/-- Model of Python `s.rfind(c)` for a single character: last index, `-1` if absent. -/
def pyRFind (s : String) (c : Char) : Int :=
  match pyFindAux c s.data.reverse with
  | none => -1
  | some n => (s.data.length : Int) - 1 - n

/-- Model of `pathlib.Path(name).suffix` for a bare file name:
`name[i:]` for the last dot index `i` when `0 < i < len(name) - 1`, else `""`. -/
def pathSuffix (name : String) : String :=
  let i := pyRFind name '.'
  if 0 < i ∧ i < (name.data.length : Int) - 1
  then String.mk (name.data.drop i.toNat)
  else ""

/-- A YAML value as loaded by the program: a scalar leaf or a nested
string-keyed mapping (association list; Python dict keys are unique). -/
inductive Val where
  | vstr (s : String)
  | vint (n : Int)
  | vbool (b : Bool)
  | vnone
  | vdict (m : List (String × Val))

/-- One escaped character of a Python string repr inside quote `q`. -/
def pyReprChar (q c : Char) : List Char :=
  if c = '\\' then ['\\', '\\']
  else if c = q then ['\\', q]
  else if c = '\n' then ['\\', 'n']
  else if c = '\r' then ['\\', 'r']
  else if c = '\t' then ['\\', 't']
  else [c]

/-- Model of Python `repr` on a string: single quotes, switching to double
quotes when the string contains `'` but no `"`. -/
def pyReprStr (s : String) : String :=
  let q : Char := if s.data.contains ('\'') && !(s.data.contains ('"')) then '"' else '\''
  String.mk (q :: s.data.foldr (fun c acc => pyReprChar q c ++ acc) [q])

/-- Model of `', '.join` used by dict `repr`. -/
def joinCommaSep : List (List Char) → List Char
  | [] => []
  | [p] => p
  | p :: ps => p ++ ',' :: ' ' :: joinCommaSep ps

mutual
/-- Model of Python `repr` on a loaded YAML value. -/
def pyRepr : Val → String
  | .vstr s => pyReprStr s
  | .vint n => toString n
  | .vbool b => if b then "True" else "False"
  | .vnone => "None"
  | .vdict m => String.mk ('\x7b' :: (joinCommaSep (pyReprEntries m)) ++ ['\x7d'])

/-- The `repr`s of a dict's bindings, in order. -/
def pyReprEntries : List (String × Val) → List (List Char)
  | [] => []
  | (k, v) :: rest => ((pyReprStr k).data ++ ':' :: ' ' :: (pyRepr v).data) :: pyReprEntries rest
end

/-- Model of Python `str(v)`: the string itself for strings, `repr` otherwise
(they agree on ints, booleans, `None` and dicts of such). -/
def pyStr : Val → String
  | .vstr s => s
  | v => pyRepr v

/-- Python truthiness of a loaded value (`bool(v)`). -/
def pyTruthy : Val → Bool
  | .vstr s => !s.data.isEmpty
  | .vint n => decide (n ≠ 0)
  | .vbool b => b
  | .vnone => false
  | .vdict m => !m.isEmpty

/-- Whether a value is a nested mapping (`isinstance(v, dict)`). -/
def isDictB : Val → Bool
  | .vdict _ => true
  | _ => false

/-!
## Embedded source functions (`src/utils.py`, `src/main.py`)
-/

/-- Model of Python `str.lower()` (ASCII case folding per character). -/
def pyLower (s : String) : String := String.mk (s.data.map Char.toLower)

/-- Python `list.sort()` on strings: ascending lexicographic order by code
points, which is Lean's `String` order. -/
def sortStrings (l : List String) : List String :=
  l.mergeSort (fun a b => decide (a ≤ b))

/-- `utils.get_languages`: keep the names of regular files in the directory
listing whose path suffix is a case-insensitive YAML extension, sorted.
The listing is passed explicitly as `(name, is_file)` pairs; a missing
directory corresponds to an empty listing. -/
def get_languages (dir_entries : List (String × Bool)) : List String :=
  sortStrings ((dir_entries.filter
    (fun e => e.2 && (pyLower (pathSuffix e.1) = ".yml" || pyLower (pathSuffix e.1) = ".yaml"))).map
    (fun e => e.1))

/-- `utils.split_key_by_dot`: empty or whitespace-only keys give `[]`;
otherwise split the stripped key on `.`, strip each part, drop parts that
are empty once stripped. -/
def split_key_by_dot (key : String) : List String :=
  if key.data = [] then []
  else
    let stripped := pyStrip key.data
    if stripped = [] then []
    else ((splitDots stripped).filter (fun part => pyStrip part ≠ [])).map
      (fun part => String.mk (pyStrip part))

/-- `utils.merge_args_to_key`: strip whitespace then surrounding dots from
each argument, drop empties, join with `.`. (The `TypeError` raised on a
non-string argument is unrepresentable here: the argument list is typed.) -/
def merge_args_to_key (args : List String) : String :=
  String.mk (joinDots ((args.map (fun i => pyStripDots (pyStrip i.data))).filter
    (fun part => part ≠ [])))

/-- The `replace_mode = Literal["i18n", "env"]` annotation of the source. -/
inductive ReplaceMode where
  | i18n
  | env
deriving DecidableEq

/-- The namespace text of a mode. -/
def ReplaceMode.text : ReplaceMode → String
  | .i18n => "i18n"
  | .env => "env"

/-- `utils.get_template_text`: the literal placeholder token `"<mode>:<key>"`.
(The runtime `TypeError` on an invalid mode is unreachable: `ReplaceMode`
has exactly the two admissible values.) -/
def get_template_text (mode : ReplaceMode) (key : String) : String :=
  mode.text ++ ":" ++ key

/-- The descent loop and terminal coercion of `utils.get_actual_content`:
walk the segments, descending one mapping level per segment, returning the
fallback as soon as the current value is not a dict or the segment is
absent; at the end return a string leaf as-is, the fallback for `None`,
and `str(value)` otherwise. -/
def resolve_args (fallback : String) : List String → Val → String
  | [], data =>
    match data with
    | .vstr s => s
    | .vnone => fallback
    | d => pyStr d
  | i :: rest, data =>
    match data with
    | .vdict m =>
      match List.lookup i m with
      | some v => resolve_args fallback rest v
      | none => fallback
    | _ => fallback

/-- `utils.get_actual_content`. The source's `try/except → fallback` wrapper
has no effect in the total model: the loop body cannot raise. -/
def get_actual_content (key : String) (data : Val) (fallback : String) : String :=
  resolve_args fallback (split_key_by_dot key) data

/-- `utils.get_actual_env_content`: fallback is the `env` placeholder token;
a truthy `data` argument (a non-empty dict) overrides the global
`runtime.DATA_ENV` mapping, which is passed here explicitly. -/
def get_actual_env_content (key : String) (data_env : List (String × Val))
    (data : Option (List (String × Val))) : String :=
  let fb := get_template_text .env key
  let d := match data with
    | some m => if !m.isEmpty then m else data_env
    | none => data_env
  get_actual_content key (.vdict d) fb

/-- `utils.get_actual_i18n_content`: as `get_actual_env_content` with the
`i18n` token and the selected language's mapping `runtime.DATA_I18N[lang_file]`,
passed here explicitly. -/
def get_actual_i18n_content (key : String) (data_lang : List (String × Val))
    (data : Option (List (String × Val))) : String :=
  let fb := get_template_text .i18n key
  let d := match data with
    | some m => if !m.isEmpty then m else data_lang
    | none => data_lang
  get_actual_content key (.vdict d) fb

mutual
/-- Structural size of a binding list, the termination measure for the
`load_keys` stack loop. -/
def esize : List (String × Val) → Nat
  | [] => 1
  | (_, v) :: rest => 1 + vsize v + esize rest

/-- Structural size of a value. -/
def vsize : Val → Nat
  | .vdict m => 1 + esize m
  | _ => 1
end

/-- One iteration body of the `load_keys` stack loop: iterate the popped
node's bindings in order; a dict child is pushed (with its extended key
path) onto the stack, any other child appends its merged dotted key —
guarded by `if new_key_path:` and with empty path parts dropped, as in the
source. Pushing onto the head of the Lean list models `list.append` +
`list.pop()` on the tail of the Python list. -/
def processEntries (path : List String) (entries : List (String × Val))
    (stack : List (List String × List (String × Val))) (keys : List String) :
    List (List String × List (String × Val)) × List String :=
  match entries with
  | [] => (stack, keys)
  | (k, v) :: rest =>
    match v with
    | .vdict m => processEntries path rest ((path ++ [k], m) :: stack) keys
    | _ =>
      processEntries path rest stack
        (if (path ++ [k]).isEmpty then keys
         else keys ++ [merge_args_to_key ((path ++ [k]).filter (fun p => p ≠ ""))])

/-- Total size of the dictionaries on the stack. -/
def stackMeasure (stack : List (List String × List (String × Val))) : Nat :=
  (stack.map (fun e => esize e.2)).sum

theorem processEntries_measure (path : List String) (entries : List (String × Val))
    (stack : List (List String × List (String × Val))) (keys : List String) :
    stackMeasure (processEntries path entries stack keys).1 < stackMeasure stack + esize entries := by
  induction entries generalizing stack keys with
  | nil => simp [processEntries, esize]
  | cons e rest ih =>
    obtain ⟨k, v⟩ := e
    cases v with
    | vdict m =>
      simp only [processEntries]
      calc stackMeasure (processEntries path rest ((path ++ [k], m) :: stack) keys).1
          < stackMeasure ((path ++ [k], m) :: stack) + esize rest := ih _ _
        _ = stackMeasure stack + esize m + esize rest := by
            simp only [stackMeasure, List.map_cons, List.sum_cons]; omega
        _ < stackMeasure stack + esize ((k, Val.vdict m) :: rest) := by
            simp only [esize, vsize]; omega
    | vstr s =>
      exact lt_trans (ih _ _) (by simp only [esize, vsize]; omega)
    | vint n =>
      exact lt_trans (ih _ _) (by simp only [esize, vsize]; omega)
    | vbool b =>
      exact lt_trans (ih _ _) (by simp only [esize, vsize]; omega)
    | vnone =>
      exact lt_trans (ih _ _) (by simp only [esize, vsize]; omega)

/-- The `while stack:` loop of `utils.load_keys`, accumulating raw dotted
keys. -/
def load_keys_go (stack : List (List String × List (String × Val)))
    (keys : List String) : List String :=
  match stack with
  | [] => keys
  | (path, m) :: rest =>
    let r := processEntries path m rest keys
    load_keys_go r.1 r.2
termination_by stackMeasure stack
decreasing_by
  have h := processEntries_measure path m rest keys
  simp only [stackMeasure, List.map_cons, List.sum_cons] at *
  omega

/-- The first-occurrence deduplication loop of `utils.load_keys`
(`seen` models the Python set). -/
def dedupLoop (seen : List String) : List String → List String
  | [] => []
  | i :: rest =>
    if i ∈ seen then dedupLoop seen rest
    else i :: dedupLoop (i :: seen) rest

/-- `utils.load_keys` from the point where the parsed YAML mapping is in
hand (the file reading and YAML parsing in front of it are I/O): stack
traversal, first-occurrence dedup, sort. -/
def load_keys_core (data : List (String × Val)) : List String :=
  let keys := load_keys_go [([], data)] []
  let unique_keys := dedupLoop [] keys
  sortStrings unique_keys

/-- The facts about a target path that `utils.replace_text_in_file`
consults: whether the file exists, its `Path.suffix`, and its text. -/
structure PyFile where
  present : Bool
  suffix : String
  content : String
deriving DecidableEq

/-- Outcome of one `replace_text_in_file` call: early return on a missing
file, `sys.exit(255)` raised before the file is read or written, or a
normal return carrying the file's state afterwards. -/
inductive ReplaceOutcome where
  | skippedMissing (f : PyFile)
  | exit255
  | completed (f : PyFile)
deriving DecidableEq

/-- `utils.replace_text_in_file`: missing target → skip; non-HTML suffix
without the override flag → `sys.exit(255)` (before any read or write);
pattern absent → return with the file unchanged; otherwise write the file
with every occurrence of `old_text` replaced by `new_text`. (The
`PermissionError` soft-failure path is filesystem behaviour outside this
model.) -/
def replace_text_in_file (f : PyFile) (new_text old_text : String)
    (ignore_format_warning : Bool) : ReplaceOutcome :=
  if !f.present then .skippedMissing f
  else if !ignore_format_warning && !(isSubstrList ("html".data) (pyLower f.suffix).data) then
    .exit255
  else if !(isSubstrList old_text.data f.content.data) then .completed f
  else .completed { f with content := pyReplace f.content old_text new_text }

/-- `utils.get_string_removed_dot_and_after`: the part of `string` before
its first `.`, and `""` when there is no dot or the first dot is at
index 0. -/
def get_string_removed_dot_and_after (string : String) : String :=
  let index := pyFind string '.'
  if index ≤ 0 then ""
  else String.mk (string.data.take index.toNat)

/-- `main.HTML_TEMPLATE_FILE_NAME`. -/
def HTML_TEMPLATE_FILE_NAME : String := "index.template.html"

/-- The output-file naming of `main.on_user_input`: reject a selection that
is not a discovered language (`sys.exit(255)`, modelled as `none`),
otherwise replace `"template"` in the template file name with the
selection's text before its first dot. -/
def on_user_input_filename (lang_list : List String) (user_input : String) : Option String :=
  if user_input ∉ lang_list then none
  else some (pyReplace HTML_TEMPLATE_FILE_NAME ("template")
    (get_string_removed_dot_and_after user_input))

/-- Thread one `replace_text_in_file` call over the file state as `main`
does; a non-completed outcome leaves the file untouched. -/
def runReplace (f : PyFile) (new_text old_text : String) : PyFile :=
  match replace_text_in_file f new_text old_text false with
  | .completed f2 => f2
  | _ => f

/-- `main.main`: the full render — one pass replacing every environment
placeholder token, then one pass replacing every i18n placeholder token of
the selected language, each token resolved with itself as fallback. -/
def main_render (env_keys : List String) (data_env : List (String × Val))
    (i18n_keys : List String) (data_lang : List (String × Val)) (f : PyFile) : PyFile :=
  let f1 := env_keys.foldl
    (fun f i => runReplace f (get_actual_env_content i data_env none) (get_template_text .env i)) f
  i18n_keys.foldl
    (fun f i => runReplace f (get_actual_i18n_content i data_lang none) (get_template_text .i18n i)) f1

/-!
## Specification-side definitions
-/

/-- The value a dotted key's segment list denotes inside a value: descend
one mapping level per segment; `none` exactly when the segment path does
not exist in the data. -/
def lookupPath : List String → Val → Option Val
  | [], d => some d
  | i :: rest, .vdict m =>
    match List.lookup i m with
    | some v => lookupPath rest v
    | none => none
  | _ :: _, _ => none

/-- A value `load_keys` treats as a leaf and the resolver renders as text
rather than the fallback: neither a mapping nor `None`. -/
def isLeafB : Val → Bool
  | .vdict _ => false
  | .vnone => false
  | _ => true

mutual
/-- Recursive restatement of the `load_keys` traversal: the
`(dotted key, leaf value)` pairs of a binding list under a path prefix,
in binding order. -/
def collectVals (path : List String) : List (String × Val) → List (String × Val)
  | [] => []
  | (k, v) :: rest => collectEntry path k v ++ collectVals path rest

/-- The pairs one binding contributes: a mapping child defers to its own
bindings under the extended path, any other child emits its merged dotted
key. -/
def collectEntry (path : List String) (k : String) : Val → List (String × Val)
  | .vdict m => collectVals (path ++ [k]) m
  | v => [(merge_args_to_key ((path ++ [k]).filter (fun p => p ≠ "")), v)]
end

/-- The stack entries one loop iteration pushes: the mapping-valued
bindings, paired with their extended paths, in binding order. -/
def pushedOf (path : List String) (es : List (String × Val)) :
    List (List String × List (String × Val)) :=
  es.filterMap (fun e => match e.2 with
    | .vdict m => some (path ++ [e.1], m)
    | _ => none)

/-- The dotted keys one loop iteration appends: those of the
non-mapping-valued bindings, in binding order. -/
def leavesOf (path : List String) (es : List (String × Val)) : List String :=
  es.filterMap (fun e => match e.2 with
    | .vdict _ => none
    | _ => some (merge_args_to_key ((path ++ [e.1]).filter (fun p => p ≠ ""))))

theorem processEntries_eq (path : List String) (es : List (String × Val))
    (stack : List (List String × List (String × Val))) (keys : List String) :
    processEntries path es stack keys =
      ((pushedOf path es).reverse ++ stack, keys ++ leavesOf path es) := by
  induction es generalizing stack keys with
  | nil => simp [processEntries, pushedOf, leavesOf]
  | cons e rest ih =>
    obtain ⟨k, v⟩ := e
    have hne : (path ++ [k]).isEmpty = false := by
      simp [List.isEmpty_iff]
    cases v with
    | vdict m =>
      simp only [processEntries, ih, pushedOf, leavesOf, List.filterMap_cons,
        List.reverse_cons, List.append_assoc, List.singleton_append]
    | vstr s =>
      simp only [processEntries, hne, Bool.false_eq_true, if_false, ih, pushedOf,
        leavesOf, List.filterMap_cons, List.append_assoc, List.singleton_append]
    | vint n =>
      simp only [processEntries, hne, Bool.false_eq_true, if_false, ih, pushedOf,
        leavesOf, List.filterMap_cons, List.append_assoc, List.singleton_append]
    | vbool b =>
      simp only [processEntries, hne, Bool.false_eq_true, if_false, ih, pushedOf,
        leavesOf, List.filterMap_cons, List.append_assoc, List.singleton_append]
    | vnone =>
      simp only [processEntries, hne, Bool.false_eq_true, if_false, ih, pushedOf,
        leavesOf, List.filterMap_cons, List.append_assoc, List.singleton_append]

/-- The dotted keys of the traversal, in order. -/
def collectKeys (path : List String) (es : List (String × Val)) : List String :=
  (collectVals path es).map Prod.fst

theorem isDictB_eq_false_iff (v : Val) : isDictB v = false ↔ ∀ m, v ≠ Val.vdict m := by
  cases v <;> simp [isDictB]

theorem collectEntry_nondict (path : List String) (k : String) (v : Val)
    (h : isDictB v = false) :
    collectEntry path k v = [(merge_args_to_key ((path ++ [k]).filter (fun p => p ≠ "")), v)] := by
  cases v <;> simp_all [collectEntry, isDictB]

theorem pushedOf_nil (path : List String) : pushedOf path [] = [] := rfl

theorem pushedOf_cons_dict (path : List String) (k : String) (m rest : List (String × Val)) :
    pushedOf path ((k, Val.vdict m) :: rest) = (path ++ [k], m) :: pushedOf path rest := rfl

theorem pushedOf_cons_nondict (path : List String) (k : String) (v : Val)
    (rest : List (String × Val)) (h : isDictB v = false) :
    pushedOf path ((k, v) :: rest) = pushedOf path rest := by
  cases v <;> simp_all [pushedOf, isDictB, List.filterMap_cons]

theorem leavesOf_nil (path : List String) : leavesOf path [] = [] := rfl

theorem leavesOf_cons_dict (path : List String) (k : String) (m rest : List (String × Val)) :
    leavesOf path ((k, Val.vdict m) :: rest) = leavesOf path rest := rfl

theorem leavesOf_cons_nondict (path : List String) (k : String) (v : Val)
    (rest : List (String × Val)) (h : isDictB v = false) :
    leavesOf path ((k, v) :: rest) =
      merge_args_to_key ((path ++ [k]).filter (fun p => p ≠ "")) :: leavesOf path rest := by
  cases v <;> simp_all [leavesOf, isDictB, List.filterMap_cons]

theorem collect_split (path : List String) (es : List (String × Val)) (x : String) :
    x ∈ collectKeys path es ↔
      (x ∈ leavesOf path es ∨
        ∃ p m, (p, m) ∈ pushedOf path es ∧ x ∈ collectKeys p m) := by
  induction es with
  | nil => simp [collectKeys, collectVals, leavesOf, pushedOf]
  | cons e rest ih =>
    obtain ⟨k, v⟩ := e
    by_cases hd : isDictB v = true
    · obtain ⟨m, rfl⟩ : ∃ m, v = Val.vdict m := by
        cases v <;> simp_all [isDictB]
      rw [collectKeys, collectVals, collectEntry, List.map_append]
      rw [pushedOf_cons_dict, leavesOf_cons_dict]
      constructor
      · intro hx
        rcases List.mem_append.mp hx with hx | hx
        · exact Or.inr ⟨path ++ [k], m, List.mem_cons_self .., hx⟩
        · rcases ih.mp hx with h | ⟨p, d, hpd, hx'⟩
          · exact Or.inl h
          · exact Or.inr ⟨p, d, List.mem_cons_of_mem _ hpd, hx'⟩
      · rintro (h | ⟨p, d, hpd, hx'⟩)
        · exact List.mem_append.mpr (Or.inr (ih.mpr (Or.inl h)))
        · rcases List.mem_cons.mp hpd with heq | hpd'
          · have h1 : p = path ++ [k] := congrArg Prod.fst heq
            have h2 : d = m := congrArg Prod.snd heq
            subst h1; subst h2
            exact List.mem_append.mpr (Or.inl hx')
          · exact List.mem_append.mpr (Or.inr (ih.mpr (Or.inr ⟨p, d, hpd', hx'⟩)))
    · have hd' : isDictB v = false := by simpa using hd
      rw [collectKeys, collectVals, collectEntry_nondict _ _ _ hd', List.map_append]
      rw [pushedOf_cons_nondict _ _ _ _ hd', leavesOf_cons_nondict _ _ _ _ hd']
      show x ∈ [merge_args_to_key _] ++ collectKeys path rest ↔ _
      rw [List.singleton_append, List.mem_cons, List.mem_cons, ih]
      tauto

theorem mem_load_keys_go (stack : List (List String × List (String × Val)))
    (keys : List String) (x : String) :
    x ∈ load_keys_go stack keys ↔
      x ∈ keys ∨ ∃ p m, (p, m) ∈ stack ∧ x ∈ collectKeys p m := by
  induction stack, keys using load_keys_go.induct with
  | case1 keys => simp [load_keys_go]
  | case2 keys path m rest r ih =>
    rw [load_keys_go]
    show x ∈ load_keys_go r.1 r.2 ↔ _
    rw [ih]
    have hr : r = ((pushedOf path m).reverse ++ rest, keys ++ leavesOf path m) :=
      processEntries_eq path m rest keys
    rw [hr]
    simp only [List.mem_append, List.mem_reverse, List.mem_cons, Prod.mk.injEq]
    constructor
    · rintro ((h | h) | ⟨p, d, (hpd | hpd), hx⟩)
      · exact Or.inl h
      · exact Or.inr ⟨path, m, Or.inl ⟨rfl, rfl⟩, (collect_split path m x).mpr (Or.inl h)⟩
      · exact Or.inr ⟨path, m, Or.inl ⟨rfl, rfl⟩,
          (collect_split path m x).mpr (Or.inr ⟨p, d, hpd, hx⟩)⟩
      · exact Or.inr ⟨p, d, Or.inr hpd, hx⟩
    · rintro (h | ⟨p, d, (⟨hp, hd⟩ | hpd), hx⟩)
      · exact Or.inl (Or.inl h)
      · subst hp; subst hd
        rcases (collect_split p d x).mp hx with h | ⟨p', m', hpm, hx'⟩
        · exact Or.inl (Or.inr h)
        · exact Or.inr ⟨p', m', Or.inl hpm, hx'⟩
      · exact Or.inr ⟨p, d, Or.inr hpd, hx⟩

theorem mem_dedupLoop (seen l : List String) (x : String) :
    x ∈ dedupLoop seen l ↔ x ∈ l ∧ x ∉ seen := by
  induction l generalizing seen with
  | nil => simp [dedupLoop]
  | cons i rest ih =>
    by_cases hi : i ∈ seen
    · rw [dedupLoop, if_pos hi, ih]
      constructor
      · rintro ⟨h1, h2⟩
        exact ⟨List.mem_cons_of_mem _ h1, h2⟩
      · rintro ⟨h1, h2⟩
        rcases List.mem_cons.mp h1 with rfl | h1'
        · exact absurd hi h2
        · exact ⟨h1', h2⟩
    · rw [dedupLoop, if_neg hi]
      simp only [List.mem_cons, ih]
      constructor
      · rintro (rfl | ⟨h1, h2⟩)
        · exact ⟨Or.inl rfl, hi⟩
        · exact ⟨Or.inr h1, fun hx => h2 (Or.inr hx)⟩
      · rintro ⟨rfl | h1, h2⟩
        · exact Or.inl rfl
        · by_cases hx : x = i
          · exact Or.inl hx
          · exact Or.inr ⟨h1, fun hs => h2 (hs.resolve_left hx)⟩

theorem nodup_dedupLoop (seen l : List String) : (dedupLoop seen l).Nodup := by
  induction l generalizing seen with
  | nil => simp [dedupLoop]
  | cons i rest ih =>
    by_cases hi : i ∈ seen
    · rw [dedupLoop, if_pos hi]; exact ih seen
    · rw [dedupLoop, if_neg hi]
      refine List.nodup_cons.mpr ⟨fun hmem => ?_, ih (i :: seen)⟩
      exact ((mem_dedupLoop (i :: seen) rest i).mp hmem).2 (List.mem_cons_self i _)

theorem sortStrings_perm (l : List String) : (sortStrings l).Perm l :=
  List.mergeSort_perm l _

theorem mem_sortStrings (l : List String) (x : String) :
    x ∈ sortStrings l ↔ x ∈ l :=
  (sortStrings_perm l).mem_iff

theorem sortStrings_sorted (l : List String) :
    (sortStrings l).Sorted (fun a b => a ≤ b) := by
  have htrans : ∀ (a b c : String),
      (decide (a ≤ b)) = true → (decide (b ≤ c)) = true → (decide (a ≤ c)) = true := by
    intro a b c hab hbc
    simp only [decide_eq_true_eq] at *
    exact le_trans hab hbc
  have htotal : ∀ (a b : String), ((decide (a ≤ b)) || (decide (b ≤ a))) = true := by
    intro a b
    rcases le_total a b with h | h <;> simp [h]
  have h := List.sorted_mergeSort htrans htotal l
  exact h.imp (fun hab => by simpa using hab)

theorem mem_load_keys_core (m : List (String × Val)) (x : String) :
    x ∈ load_keys_core m ↔ x ∈ collectKeys [] m := by
  rw [load_keys_core]
  show x ∈ sortStrings (dedupLoop [] (load_keys_go [([], m)] [])) ↔ _
  rw [mem_sortStrings, mem_dedupLoop, mem_load_keys_go]
  constructor
  · rintro ⟨h | ⟨p, m1, hpm, hx⟩, h2⟩
    · exact absurd h (List.not_mem_nil x)
    · have heq := List.mem_singleton.mp hpm
      have hp : p = [] := congrArg Prod.fst heq
      have hm : m1 = m := congrArg Prod.snd heq
      subst hp; subst hm; exact hx
  · intro hx
    exact ⟨Or.inr ⟨[], m, List.mem_singleton.mpr rfl, hx⟩, List.not_mem_nil x⟩

/-!
## Resolver lemmas
-/

theorem resolve_args_of_lookupPath_none (segs : List String) (d : Val) (fb : String)
    (h : lookupPath segs d = none) : resolve_args fb segs d = fb := by
  induction segs generalizing d with
  | nil => simp [lookupPath] at h
  | cons i rest ih =>
    cases d with
    | vdict m =>
      simp only [lookupPath] at h
      cases hl : List.lookup i m with
      | some w =>
        rw [hl] at h
        simp only [resolve_args, hl]
        exact ih w h
      | none => simp [resolve_args, hl]
    | vstr s => simp [resolve_args]
    | vint n => simp [resolve_args]
    | vbool b => simp [resolve_args]
    | vnone => simp [resolve_args]

theorem resolve_args_of_lookupPath_some (segs : List String) (d v : Val) (fb : String)
    (h : lookupPath segs d = some v) (hleaf : isLeafB v = true) :
    resolve_args fb segs d = pyStr v := by
  induction segs generalizing d with
  | nil =>
    simp only [lookupPath, Option.some.injEq] at h
    subst h
    cases d <;> simp_all [resolve_args, isLeafB, pyStr]
  | cons i rest ih =>
    cases d with
    | vdict m =>
      simp only [lookupPath] at h
      cases hl : List.lookup i m with
      | some w =>
        rw [hl] at h
        simp only [resolve_args, hl]
        exact ih w h
      | none =>
        rw [hl] at h
        exact absurd h (by simp)
    | vstr s => simp [lookupPath] at h
    | vint n => simp [lookupPath] at h
    | vbool b => simp [lookupPath] at h
    | vnone => simp [lookupPath] at h

/-!
## Well-formedness of loaded data, and key/segment round-trip lemmas
-/

/-- A mapping key that survives the program's whitespace/dot normalisation
untouched: non-empty, whitespace-stripped, and containing no `.`. -/
def wfSeg (s : String) : Prop :=
  s.data ≠ [] ∧ pyStrip s.data = s.data ∧ '.' ∉ s.data

instance (s : String) : Decidable (wfSeg s) := by
  unfold wfSeg
  infer_instance

mutual
/-- Well-formed binding lists: per level, every key is a `wfSeg` and keys
are pairwise distinct (as in a Python dict), and every value is well
formed. -/
def wfEntriesB : List (String × Val) → Bool
  | [] => true
  | (k, v) :: rest =>
    decide (wfSeg k) && wfValB v && !(rest.any (fun e => e.1 == k)) && wfEntriesB rest

/-- Well-formed values: scalars other than `None` are leaves, mappings
recurse. -/
def wfValB : Val → Bool
  | .vstr _ => true
  | .vint _ => true
  | .vbool _ => true
  | .vnone => false
  | .vdict m => wfEntriesB m
end

theorem lookup_of_mem_of_wf (es : List (String × Val)) (k : String) (v : Val)
    (hwf : wfEntriesB es = true) (hmem : (k, v) ∈ es) : List.lookup k es = some v := by
  induction es with
  | nil => simp at hmem
  | cons e rest ih =>
    obtain ⟨k', v'⟩ := e
    rw [wfEntriesB] at hwf
    simp only [Bool.and_eq_true, Bool.not_eq_true'] at hwf
    obtain ⟨⟨⟨hk', hv'⟩, hany⟩, hrest⟩ := hwf
    rcases List.mem_cons.mp hmem with heq | hmem'
    · have h1 : k = k' := congrArg Prod.fst heq
      have h2 : v = v' := congrArg Prod.snd heq
      subst h1; subst h2
      simp [List.lookup_cons]
    · have hkne : (k == k') = false := by
        by_contra hb
        have hbt : (k == k') = true := by
          cases hbe : k == k'
          · exact absurd hbe hb
          · rfl
        have hkk : k = k' := eq_of_beq hbt
        subst hkk
        have hco : rest.any (fun e => e.1 == k) = true :=
          List.any_eq_true.mpr ⟨(k, v), hmem', by simp⟩
        rw [hco] at hany
        exact absurd hany (by simp)
      rw [List.lookup_cons, hkne]
      exact ih hrest hmem'

theorem wfEntriesB_of_mem_dict (es : List (String × Val)) (k : String) (m : List (String × Val))
    (hwf : wfEntriesB es = true) (hmem : (k, Val.vdict m) ∈ es) : wfEntriesB m = true := by
  induction es with
  | nil => simp at hmem
  | cons e rest ih =>
    obtain ⟨k', v'⟩ := e
    rw [wfEntriesB] at hwf
    simp only [Bool.and_eq_true] at hwf
    obtain ⟨⟨⟨hk', hv'⟩, _⟩, hrest⟩ := hwf
    rcases List.mem_cons.mp hmem with heq | hmem'
    · have h2 : Val.vdict m = v' := congrArg Prod.snd heq
      rw [← h2] at hv'
      exact hv'
    · exact ih hrest hmem'

theorem dropWhile_eq_self_of_head (p : Char → Bool) (l : List Char)
    (h : ∀ c, l.head? = some c → p c = false) : l.dropWhile p = l := by
  cases l with
  | nil => rfl
  | cons c t => simp [List.dropWhile_cons, h c rfl]

theorem dropWhile_eq_self_of_length (p : Char → Bool) (l : List Char)
    (h : (l.dropWhile p).length = l.length) : l.dropWhile p = l := by
  induction l with
  | nil => rfl
  | cons c t ih =>
    rw [List.dropWhile_cons]
    by_cases hc : p c = true
    · rw [List.dropWhile_cons, if_pos hc] at h
      have hle : (t.dropWhile p).length ≤ t.length := (List.dropWhile_suffix _).length_le
      simp at h
      omega
    · simp [hc]

theorem head_not_of_dropWhile_eq_self (p : Char → Bool) (l : List Char)
    (h : l.dropWhile p = l) : ∀ c, l.head? = some c → p c = false := by
  intro c hc
  cases l with
  | nil => simp at hc
  | cons d t =>
    obtain rfl : d = c := by simpa using hc
    rw [List.dropWhile_cons] at h
    by_cases hp : p d = true
    · rw [if_pos hp] at h
      have hle : (t.dropWhile p).length ≤ t.length := (List.dropWhile_suffix _).length_le
      have hlen := congrArg List.length h
      simp at hlen
      omega
    · simpa using hp

theorem pyStrip_eq_self_parts (l : List Char) (h : pyStrip l = l) :
    l.dropWhile Char.isWhitespace = l ∧
      l.reverse.dropWhile Char.isWhitespace = l.reverse := by
  have hlen : (l.dropWhile Char.isWhitespace).length = l.length := by
    have hX : (((l.dropWhile Char.isWhitespace).reverse.dropWhile Char.isWhitespace).reverse).length
        ≤ (l.dropWhile Char.isWhitespace).length := by
      rw [List.length_reverse]
      calc ((l.dropWhile Char.isWhitespace).reverse.dropWhile Char.isWhitespace).length
          ≤ (l.dropWhile Char.isWhitespace).reverse.length := (List.dropWhile_suffix _).length_le
        _ = (l.dropWhile Char.isWhitespace).length := List.length_reverse _
    have hJ : (l.dropWhile Char.isWhitespace).length ≤ l.length :=
      (List.dropWhile_suffix _).length_le
    have hh : (((l.dropWhile Char.isWhitespace).reverse.dropWhile Char.isWhitespace).reverse).length
        = l.length := congrArg List.length h
    omega
  have h1 : l.dropWhile Char.isWhitespace = l :=
    dropWhile_eq_self_of_length _ _ hlen
  have h2 : l.reverse.dropWhile Char.isWhitespace = l.reverse := by
    have h' : ((l.dropWhile Char.isWhitespace).reverse.dropWhile Char.isWhitespace).reverse = l := h
    rw [h1] at h'
    have h'' := congrArg List.reverse h'
    rwa [List.reverse_reverse] at h''
  exact ⟨h1, h2⟩

@[simp] theorem data_mk (l : List Char) : (String.mk l).data = l := rfl

theorem splitDots_no_dot (l : List Char) (h : '.' ∉ l) : splitDots l = [l] := by
  induction l with
  | nil => rfl
  | cons c t ih =>
    have hc : ¬(c = '.') := fun hceq => h (hceq ▸ List.mem_cons_self c t)
    have ht : '.' ∉ t := fun hm => h (List.mem_cons_of_mem c hm)
    rw [splitDots, if_neg hc, ih ht]

theorem splitDots_append (l t : List Char) (h : '.' ∉ l) :
    splitDots (l ++ '.' :: t) = l :: splitDots t := by
  induction l with
  | nil =>
    show splitDots ('.' :: t) = [] :: splitDots t
    rw [splitDots, if_pos rfl]
  | cons c l' ih =>
    have hc : ¬(c = '.') := fun hceq => h (hceq ▸ List.mem_cons_self c l')
    have hl' : '.' ∉ l' := fun hm => h (List.mem_cons_of_mem c hm)
    show splitDots (c :: (l' ++ '.' :: t)) = (c :: l') :: splitDots t
    rw [splitDots, if_neg hc, ih hl']

theorem splitDots_joinDots (ls : List (List Char)) (hne : ls ≠ [])
    (h : ∀ l ∈ ls, '.' ∉ l) : splitDots (joinDots ls) = ls := by
  induction ls with
  | nil => exact absurd rfl hne
  | cons l rest ih =>
    cases rest with
    | nil => exact splitDots_no_dot l (h l (List.mem_cons_self l []))
    | cons l2 rest2 =>
      show splitDots (l ++ '.' :: joinDots (l2 :: rest2)) = l :: l2 :: rest2
      rw [splitDots_append _ _ (h l (List.mem_cons_self l _))]
      rw [ih (by simp) (fun x hx => h x (List.mem_cons_of_mem l hx))]

theorem joinDots_ne_nil (l : List Char) (ls : List (List Char)) (hl : l ≠ []) :
    joinDots (l :: ls) ≠ [] := by
  cases ls with
  | nil => exact hl
  | cons l2 ls2 =>
    show l ++ '.' :: joinDots (l2 :: ls2) ≠ []
    simp

theorem joinDots_head (l : List Char) (ls : List (List Char)) (hl : l ≠ []) :
    (joinDots (l :: ls)).head? = l.head? := by
  cases ls with
  | nil => rfl
  | cons l2 ls2 =>
    show (l ++ '.' :: joinDots (l2 :: ls2)).head? = l.head?
    cases l with
    | nil => exact absurd rfl hl
    | cons c t => rfl

theorem joinDots_append_singleton (xs : List (List Char)) (y : List Char) (hxs : xs ≠ []) :
    joinDots (xs ++ [y]) = joinDots xs ++ '.' :: y := by
  induction xs with
  | nil => exact absurd rfl hxs
  | cons x xs' ih =>
    cases xs' with
    | nil => rfl
    | cons x2 xs2 =>
      have h1 : joinDots (x :: ((x2 :: xs2) ++ [y])) =
          x ++ '.' :: joinDots ((x2 :: xs2) ++ [y]) := rfl
      rw [List.cons_append, h1, ih (by simp)]
      show x ++ '.' :: (joinDots (x2 :: xs2) ++ '.' :: y) =
        (x ++ '.' :: joinDots (x2 :: xs2)) ++ '.' :: y
      simp

theorem joinDots_reverse (ls : List (List Char)) :
    (joinDots ls).reverse = joinDots (ls.reverse.map List.reverse) := by
  induction ls with
  | nil => rfl
  | cons l rest ih =>
    cases rest with
    | nil => rfl
    | cons l2 rest2 =>
      show (l ++ '.' :: joinDots (l2 :: rest2)).reverse = _
      rw [List.reverse_append, List.reverse_cons, ih]
      rw [show (l :: l2 :: rest2).reverse.map List.reverse
            = (l2 :: rest2).reverse.map List.reverse ++ [l.reverse] by simp]
      rw [joinDots_append_singleton _ _ (by simp)]
      simp

theorem pyStrip_joinDots (segs : List String) (hne : segs ≠ [])
    (hwf : ∀ s ∈ segs, wfSeg s) :
    pyStrip (joinDots (segs.map String.data)) = joinDots (segs.map String.data) := by
  obtain ⟨s0, rest, rfl⟩ : ∃ s0 rest, segs = s0 :: rest := by
    cases segs with
    | nil => exact absurd rfl hne
    | cons a b => exact ⟨a, b, rfl⟩
  have hwf0 := hwf s0 (List.mem_cons_self s0 rest)
  have hmap : (s0 :: rest).map String.data = s0.data :: rest.map String.data := rfl
  have hd : (joinDots ((s0 :: rest).map String.data)).dropWhile Char.isWhitespace
      = joinDots ((s0 :: rest).map String.data) := by
    apply dropWhile_eq_self_of_head
    intro c hc
    rw [hmap, joinDots_head s0.data (rest.map String.data) hwf0.1] at hc
    exact head_not_of_dropWhile_eq_self _ _ (pyStrip_eq_self_parts _ hwf0.2.1).1 c hc
  have hr : (joinDots ((s0 :: rest).map String.data)).reverse.dropWhile Char.isWhitespace
      = (joinDots ((s0 :: rest).map String.data)).reverse := by
    obtain ⟨y, ys, hyys⟩ : ∃ y ys, ((s0 :: rest).map String.data).reverse = y :: ys := by
      cases hrev : ((s0 :: rest).map String.data).reverse with
      | nil =>
        have := congrArg List.length hrev
        simp at this
      | cons a b => exact ⟨a, b, rfl⟩
    obtain ⟨t, htmem, hty⟩ : ∃ t ∈ s0 :: rest, String.data t = y := by
      have hymem : y ∈ (s0 :: rest).map String.data := by
        rw [← List.mem_reverse, hyys]
        exact List.mem_cons_self y ys
      exact List.mem_map.mp hymem
    have hwft := hwf t htmem
    apply dropWhile_eq_self_of_head
    intro c hc
    rw [joinDots_reverse, hyys] at hc
    rw [show (y :: ys).map List.reverse = y.reverse :: ys.map List.reverse from rfl] at hc
    have hyne : y.reverse ≠ [] := by
      rw [← hty]
      simpa using hwft.1
    rw [joinDots_head y.reverse (ys.map List.reverse) hyne] at hc
    have hself : t.data.reverse.dropWhile Char.isWhitespace = t.data.reverse :=
      (pyStrip_eq_self_parts _ hwft.2.1).2
    rw [← hty] at hc
    exact head_not_of_dropWhile_eq_self _ _ hself c hc
  show ((((joinDots ((s0 :: rest).map String.data)).dropWhile
      Char.isWhitespace).reverse).dropWhile Char.isWhitespace).reverse = _
  rw [hd, hr, List.reverse_reverse]

theorem pyStripDots_eq_self (l : List Char) (h : '.' ∉ l) : pyStripDots l = l := by
  have hforward : l.dropWhile (fun c => decide (c = '.')) = l := by
    apply dropWhile_eq_self_of_head
    intro c hc
    have hcl : c ∈ l := List.mem_of_mem_head? (by simpa using hc)
    have hcne : c ≠ '.' := fun hh => h (hh ▸ hcl)
    simp [hcne]
  have hback : l.reverse.dropWhile (fun c => decide (c = '.')) = l.reverse := by
    apply dropWhile_eq_self_of_head
    intro c hc
    have hcl : c ∈ l := by
      rw [← List.mem_reverse]
      exact List.mem_of_mem_head? (by simpa using hc)
    have hcne : c ≠ '.' := fun hh => h (hh ▸ hcl)
    simp [hcne]
  show (((l.dropWhile _).reverse).dropWhile _).reverse = l
  rw [hforward, hback, List.reverse_reverse]

theorem ne_empty_of_wfSeg (s : String) (h : wfSeg s) : s ≠ "" := by
  intro hs
  rw [hs] at h
  exact h.1 rfl

theorem merge_args_to_key_of_wf (parts : List String) (hwf : ∀ s ∈ parts, wfSeg s) :
    merge_args_to_key (parts.filter (fun p => p ≠ "")) =
      String.mk (joinDots (parts.map String.data)) := by
  have hfilter : parts.filter (fun p => p ≠ "") = parts := by
    apply List.filter_eq_self.mpr
    intro s hs
    simpa using ne_empty_of_wfSeg s (hwf s hs)
  rw [hfilter]
  show String.mk (joinDots ((parts.map
      (fun i => pyStripDots (pyStrip i.data))).filter (fun part => part ≠ []))) = _
  have hmap : parts.map (fun i => pyStripDots (pyStrip i.data)) = parts.map String.data := by
    apply List.map_congr_left
    intro s hs
    rw [(hwf s hs).2.1, pyStripDots_eq_self _ (hwf s hs).2.2]
  rw [hmap]
  have hfilter2 : (parts.map String.data).filter (fun part => part ≠ []) =
      parts.map String.data := by
    apply List.filter_eq_self.mpr
    intro l hl
    obtain ⟨s, hs, rfl⟩ := List.mem_map.mp hl
    simpa using (hwf s hs).1
  rw [hfilter2]

theorem split_key_by_dot_joinDots (segs : List String) (hne : segs ≠ [])
    (hwf : ∀ s ∈ segs, wfSeg s) :
    split_key_by_dot (String.mk (joinDots (segs.map String.data))) = segs := by
  have hJne : joinDots (segs.map String.data) ≠ [] := by
    obtain ⟨s0, rest, rfl⟩ : ∃ s0 rest, segs = s0 :: rest := by
      cases segs with
      | nil => exact absurd rfl hne
      | cons a b => exact ⟨a, b, rfl⟩
    exact joinDots_ne_nil _ _ (hwf s0 (List.mem_cons_self s0 rest)).1
  have hstrip : pyStrip (joinDots (segs.map String.data)) = joinDots (segs.map String.data) :=
    pyStrip_joinDots segs hne hwf
  rw [split_key_by_dot]
  rw [data_mk, if_neg hJne]
  simp only [hstrip, if_neg hJne]
  have hdots : ∀ l ∈ segs.map String.data, '.' ∉ l := by
    intro l hl
    obtain ⟨s, hs, rfl⟩ := List.mem_map.mp hl
    exact (hwf s hs).2.2
  rw [splitDots_joinDots (segs.map String.data) (by simpa using hne) hdots]
  have hfilter : (segs.map String.data).filter (fun part => pyStrip part ≠ []) =
      segs.map String.data := by
    apply List.filter_eq_self.mpr
    intro l hl
    obtain ⟨s, hs, rfl⟩ := List.mem_map.mp hl
    rw [(hwf s hs).2.1]
    simpa using (hwf s hs).1
  rw [hfilter, List.map_map]
  have hmapid : segs.map ((fun part => String.mk (pyStrip part)) ∘ String.data) =
      segs.map (fun s => s) := by
    apply List.map_congr_left
    intro s hs
    show String.mk (pyStrip s.data) = s
    rw [(hwf s hs).2.1]
  rw [hmapid]
  simp

theorem mem_keys_of_lookup_eq_some (es : List (String × Val)) (a : String) (b : Val)
    (h : List.lookup a es = some b) : a ∈ es.map Prod.fst := by
  induction es with
  | nil => simp at h
  | cons e rest ih =>
    obtain ⟨k', v'⟩ := e
    rw [List.lookup_cons] at h
    cases hb : a == k' with
    | true =>
      have := eq_of_beq hb
      subst this
      simp
    | false =>
      rw [hb] at h
      exact List.mem_cons_of_mem _ (ih h)

/-- Induction motive (binding-list level) for the flatten/resolve
round-trip under well-formedness: every emitted dotted key is the plain
dot-join of a non-empty well-formed segment path that looks up to its leaf
value. -/
def RoundTripEntries (path : List String) (es : List (String × Val)) : Prop :=
  wfEntriesB es = true → (∀ s ∈ path, wfSeg s) → ∀ k v, (k, v) ∈ collectVals path es →
    ∃ segs, segs ≠ [] ∧ (∀ s ∈ segs, wfSeg s) ∧
      k = String.mk (joinDots ((path ++ segs).map String.data)) ∧
      lookupPath segs (Val.vdict es) = some v ∧ isLeafB v = true

/-- Induction motive (single-binding level): segments relative to the
binding's value (empty for a leaf binding). -/
def RoundTripEntry (path : List String) (k0 : String) (v0 : Val) : Prop :=
  wfSeg k0 → wfValB v0 = true → (∀ s ∈ path, wfSeg s) →
    ∀ k v, (k, v) ∈ collectEntry path k0 v0 →
    ∃ segs, (∀ s ∈ segs, wfSeg s) ∧
      k = String.mk (joinDots ((path ++ k0 :: segs).map String.data)) ∧
      lookupPath segs v0 = some v ∧ isLeafB v = true

theorem roundTrip_case1 (path : List String) (k0 : String) (m : List (String × Val))
    (ih : RoundTripEntries (path ++ [k0]) m) : RoundTripEntry path k0 (Val.vdict m) := by
  intro hk hv hpath k v hmem
  rw [show wfValB (Val.vdict m) = wfEntriesB m from rfl] at hv
  have hpath' : ∀ s ∈ path ++ [k0], wfSeg s := by
    intro s hs
    rcases List.mem_append.mp hs with h | h
    · exact hpath s h
    · rw [List.mem_singleton.mp h]
      exact hk
  obtain ⟨segs, hne, hwfsegs, hkeq, hlook, hleaf⟩ := ih hv hpath' k v hmem
  refine ⟨segs, hwfsegs, ?_, hlook, hleaf⟩
  rw [hkeq]
  rw [show path ++ k0 :: segs = (path ++ [k0]) ++ segs by simp]

theorem roundTrip_case2 (v0 : Val) (path : List String) (k0 : String)
    (h : ∀ m, v0 = Val.vdict m → False) : RoundTripEntry path k0 v0 := by
  intro hk hv hpath k v hmem
  have hnd : isDictB v0 = false := (isDictB_eq_false_iff v0).mpr (fun m hm => h m hm)
  rw [collectEntry_nondict path k0 v0 hnd] at hmem
  have heq := List.mem_singleton.mp hmem
  have h1 : k = merge_args_to_key ((path ++ [k0]).filter (fun p => p ≠ "")) :=
    congrArg Prod.fst heq
  have h2 : v = v0 := congrArg Prod.snd heq
  have hwfparts : ∀ s ∈ path ++ [k0], wfSeg s := by
    intro s hs
    rcases List.mem_append.mp hs with hh | hh
    · exact hpath s hh
    · rw [List.mem_singleton.mp hh]
      exact hk
  refine ⟨[], by simp, ?_, ?_, ?_⟩
  · rw [h1, merge_args_to_key_of_wf (path ++ [k0]) hwfparts]
  · rw [show lookupPath [] v0 = some v0 from rfl, h2]
  · rw [h2]
    cases v0 <;> simp_all [isLeafB, wfValB, isDictB]

theorem roundTrip_case3 (path : List String) : RoundTripEntries path [] := by
  intro _ _ k v hmem
  simp [collectVals] at hmem

theorem roundTrip_case4 (path : List String) (k0 : String) (v0 : Val)
    (rest : List (String × Val)) (ih2 : RoundTripEntry path k0 v0)
    (ih1 : RoundTripEntries path rest) : RoundTripEntries path ((k0, v0) :: rest) := by
  intro hwf hpath k v hmem
  rw [wfEntriesB] at hwf
  simp only [Bool.and_eq_true, Bool.not_eq_true'] at hwf
  obtain ⟨⟨⟨hk0, hv0⟩, hany⟩, hrest⟩ := hwf
  have hk0' : wfSeg k0 := of_decide_eq_true hk0
  rw [collectVals] at hmem
  rcases List.mem_append.mp hmem with hL | hR
  · obtain ⟨segs, hwfsegs, hkeq, hlook, hleaf⟩ := ih2 hk0' hv0 hpath k v hL
    refine ⟨k0 :: segs, by simp, ?_, hkeq, ?_, hleaf⟩
    · intro s hs
      rcases List.mem_cons.mp hs with hh | hh
      · rw [hh]; exact hk0'
      · exact hwfsegs s hh
    · show lookupPath (k0 :: segs) (Val.vdict ((k0, v0) :: rest)) = some v
      simp only [lookupPath, List.lookup_cons, BEq.refl]
      exact hlook
  · obtain ⟨segs, hne, hwfsegs, hkeq, hlook, hleaf⟩ := ih1 hrest hpath k v hR
    obtain ⟨s1, srest, rfl⟩ : ∃ a b, segs = a :: b := by
      cases segs with
      | nil => exact absurd rfl hne
      | cons a b => exact ⟨a, b, rfl⟩
    have hsplit : ∃ w, List.lookup s1 rest = some w ∧ lookupPath srest w = some v := by
      simp only [lookupPath] at hlook
      cases hl : List.lookup s1 rest with
      | none =>
        rw [hl] at hlook
        exact absurd hlook (by simp)
      | some w =>
        rw [hl] at hlook
        exact ⟨w, rfl, hlook⟩
    obtain ⟨w, hw1, hw2⟩ := hsplit
    have hs1mem : s1 ∈ rest.map Prod.fst := mem_keys_of_lookup_eq_some rest s1 w hw1
    have hs1ne : (s1 == k0) = false := by
      cases hb : s1 == k0 with
      | false => rfl
      | true =>
        have hs1k : s1 = k0 := eq_of_beq hb
        subst hs1k
        obtain ⟨e, hemem, hefst⟩ := List.mem_map.mp hs1mem
        have hco : rest.any (fun e => e.1 == s1) = true :=
          List.any_eq_true.mpr ⟨e, hemem, by rw [hefst]; simp⟩
        rw [hco] at hany
        exact absurd hany (by simp)
    refine ⟨s1 :: srest, by simp, hwfsegs, hkeq, ?_, hleaf⟩
    show lookupPath (s1 :: srest) (Val.vdict ((k0, v0) :: rest)) = some v
    simp only [lookupPath, List.lookup_cons, hs1ne, hw1]
    exact hw2

theorem collectVals_sound (path : List String) (es : List (String × Val)) :
    RoundTripEntries path es :=
  collectVals.induct RoundTripEntries RoundTripEntry
    roundTrip_case1 roundTrip_case2 roundTrip_case3 roundTrip_case4 path es

/-!
## Evaluation helpers and remaining supporting lemmas
-/

theorem sortStrings_nil : sortStrings [] = [] := List.mergeSort_nil

theorem sortStrings_singleton (x : String) : sortStrings [x] = [x] :=
  List.mergeSort_singleton x

theorem sorted_nodup_ext (l1 l2 : List String)
    (s1 : l1.Sorted (fun a b => a ≤ b)) (s2 : l2.Sorted (fun a b => a ≤ b))
    (n1 : l1.Nodup) (n2 : l2.Nodup) (h : ∀ x, x ∈ l1 ↔ x ∈ l2) : l1 = l2 := by
  have hp : l1.Perm l2 := (List.perm_ext_iff_of_nodup n1 n2).mpr h
  exact List.eq_of_perm_of_sorted hp s1 s2

theorem load_keys_core_sorted (m : List (String × Val)) :
    (load_keys_core m).Sorted (fun a b => a ≤ b) := by
  show (sortStrings (dedupLoop [] (load_keys_go [([], m)] []))).Sorted _
  exact sortStrings_sorted _

theorem load_keys_core_nodup (m : List (String × Val)) : (load_keys_core m).Nodup := by
  show (sortStrings (dedupLoop [] (load_keys_go [([], m)] []))).Nodup
  exact (sortStrings_perm _).nodup_iff.mpr (nodup_dedupLoop _ _)

theorem load_keys_core_single_str (k V : String) :
    load_keys_core [(k, Val.vstr V)] =
      [merge_args_to_key ([k].filter (fun p => p ≠ ""))] := by
  show sortStrings (dedupLoop [] (load_keys_go [([], [(k, Val.vstr V)])] [])) = _
  have h1 : load_keys_go [([], [(k, Val.vstr V)])] [] =
      [merge_args_to_key ([k].filter (fun p => p ≠ ""))] := by
    simp [load_keys_go, processEntries]
  rw [h1]
  rw [show dedupLoop [] [merge_args_to_key ([k].filter (fun p => p ≠ ""))] =
    [merge_args_to_key ([k].filter (fun p => p ≠ ""))] from rfl]
  exact sortStrings_singleton _

theorem load_keys_core_ab :
    load_keys_core [("a", Val.vdict [("b", Val.vstr "X")])] = ["a.b"] := by
  show sortStrings (dedupLoop []
    (load_keys_go [([], [("a", Val.vdict [("b", Val.vstr "X")])])] [])) = _
  have h1 : load_keys_go [([], [("a", Val.vdict [("b", Val.vstr "X")])])] [] = ["a.b"] := by
    simp [load_keys_go, processEntries]
    rfl
  rw [h1]
  rw [show dedupLoop [] ["a.b"] = ["a.b"] from rfl]
  exact sortStrings_singleton _

theorem collectKeys_mem_of_leaf (path : List String) (es : List (String × Val))
    (k : String) (v : Val) (hmem : (k, v) ∈ es) (hnd : isDictB v = false) :
    merge_args_to_key ((path ++ [k]).filter (fun p => p ≠ "")) ∈ collectKeys path es := by
  induction es with
  | nil => simp at hmem
  | cons e rest ih =>
    rcases List.mem_cons.mp hmem with heq | hmem'
    · subst heq
      rw [collectKeys, collectVals, collectEntry_nondict _ _ _ hnd]
      simp
    · obtain ⟨k', v'⟩ := e
      rw [collectKeys, collectVals, List.map_append]
      exact List.mem_append.mpr (Or.inr (ih hmem'))

theorem merge_single_filter (k : String) :
    merge_args_to_key ([k].filter (fun p => p ≠ "")) = merge_args_to_key [k] := by
  by_cases hk : k = ""
  · subst hk
    rfl
  · rw [show ([k].filter (fun p => p ≠ "")) = [k] by simp [hk]]

theorem pyStrip_nil_of_all_ws (l : List Char) (h : ∀ c ∈ l, c.isWhitespace = true) :
    pyStrip l = [] := by
  have h1 : l.dropWhile Char.isWhitespace = [] := List.dropWhile_eq_nil_iff.mpr h
  show (((l.dropWhile Char.isWhitespace).reverse).dropWhile Char.isWhitespace).reverse = []
  rw [h1]
  rfl

theorem pyFindAux_none_iff (c : Char) (l : List Char) :
    pyFindAux c l = none ↔ c ∉ l := by
  induction l with
  | nil => simp [pyFindAux]
  | cons x rest ih =>
    rw [pyFindAux]
    by_cases hx : x = c
    · subst hx
      simp
    · rw [if_neg hx]
      constructor
      · intro hc
        cases hfa : pyFindAux c rest with
        | none =>
          have hnm := ih.mp hfa
          intro hm
          rcases List.mem_cons.mp hm with rfl | hm'
          · exact hx rfl
          · exact hnm hm'
        | some m =>
          rw [hfa] at hc
          simp at hc
      · intro hc
        have : pyFindAux c rest = none := ih.mpr (fun hm => hc (List.mem_cons_of_mem _ hm))
        rw [this]
        rfl

theorem pyFindAux_take (c : Char) (l : List Char) :
    ∀ n, pyFindAux c l = some n → l.take n = l.takeWhile (fun d => d ≠ c) := by
  induction l with
  | nil => intro n hn; simp [pyFindAux] at hn
  | cons x rest ih =>
    intro n hn
    rw [pyFindAux] at hn
    by_cases hx : x = c
    · rw [if_pos hx] at hn
      have : n = 0 := by simpa using hn.symm
      subst this
      subst hx
      simp [List.takeWhile_cons]
    · rw [if_neg hx] at hn
      obtain ⟨m, hm, rfl⟩ : ∃ m, pyFindAux c rest = some m ∧ n = m + 1 := by
        cases hfa : pyFindAux c rest with
        | none => rw [hfa] at hn; simp at hn
        | some m =>
          rw [hfa] at hn
          simp at hn
          exact ⟨m, rfl, hn.symm⟩
      rw [List.take_succ_cons, List.takeWhile_cons, if_pos (by simpa using hx), ih m hm]

theorem get_string_eq_takeWhile (x : String) (h : '.' ∈ x.data) :
    get_string_removed_dot_and_after x =
      String.mk (x.data.takeWhile (fun c => c ≠ '.')) := by
  obtain ⟨n, hn⟩ : ∃ n, pyFindAux '.' x.data = some n := by
    cases hfa : pyFindAux '.' x.data with
    | none => exact absurd ((pyFindAux_none_iff _ _).mp hfa) (by simpa using h)
    | some n => exact ⟨n, rfl⟩
  have htake := pyFindAux_take '.' x.data n hn
  show (if pyFind x '.' ≤ 0 then ""
    else String.mk (x.data.take (pyFind x '.').toNat)) = _
  rw [show pyFind x '.' = (n : Int) by rw [pyFind, hn]]
  by_cases hn0 : n = 0
  · subst hn0
    rw [if_pos (by simp)]
    rw [show x.data.take 0 = [] from rfl] at htake
    rw [← htake]
  · have hgt : ¬((n : Int) ≤ 0) := by omega
    rw [if_neg hgt]
    rw [show ((n : Int)).toNat = n from rfl]
    rw [htake]

theorem mem_get_languages (entries : List (String × Bool)) (x : String)
    (h : x ∈ get_languages entries) :
    (x, true) ∈ entries ∧
      (pyLower (pathSuffix x) = ".yml" ∨ pyLower (pathSuffix x) = ".yaml") := by
  rw [get_languages, mem_sortStrings] at h
  obtain ⟨e, he, rfl⟩ := List.mem_map.mp h
  have hf := List.mem_filter.mp he
  obtain ⟨hmem, hcond⟩ := hf
  simp only [Bool.and_eq_true, Bool.or_eq_true, decide_eq_true_eq] at hcond
  obtain ⟨he2, hsuf⟩ := hcond
  constructor
  · have : e = (e.1, true) := by
      obtain ⟨a, b⟩ := e
      simp at he2
      rw [he2]
    rw [← this]
    exact hmem
  · exact hsuf

theorem pathSuffix_dot_mem (x : String)
    (h : pyLower (pathSuffix x) = ".yml" ∨ pyLower (pathSuffix x) = ".yaml") :
    '.' ∈ x.data := by
  have hne : pathSuffix x ≠ "" := by
    intro hempty
    rw [hempty] at h
    rcases h with h | h <;> exact absurd h (by decide)
  by_contra hno
  have hfa : pyFindAux '.' x.data.reverse = none :=
    (pyFindAux_none_iff _ _).mpr (by simpa using hno)
  have hrf : pyRFind x '.' = -1 := by
    rw [pyRFind, hfa]
  apply hne
  rw [pathSuffix]
  rw [hrf]
  rw [if_neg (by omega)]

theorem pyReplace_i18n_token :
    pyReplace ("i18n:greet") ("i18n:greet") ("env:foo") = "env:foo" := by
  simp [pyReplace, replaceAux, List.isPrefixOf]

theorem main_render_env_token_eval (V : String) :
    main_render (load_keys_core [("foo", Val.vstr V)]) [("foo", Val.vstr V)]
      (load_keys_core [("greet", Val.vstr ("env:foo"))]) [("greet", Val.vstr ("env:foo"))]
      ⟨true, ".html", "i18n:greet"⟩ = ⟨true, ".html", "env:foo"⟩ := by
  have h1 : load_keys_core [("foo", Val.vstr V)] = ["foo"] := by
    rw [load_keys_core_single_str]
    rfl
  have h2 : load_keys_core [("greet", Val.vstr ("env:foo"))] = ["greet"] := by
    rw [load_keys_core_single_str]
    rfl
  rw [h1, h2]
  rw [show main_render ["foo"] [("foo", Val.vstr V)] ["greet"]
      [("greet", Val.vstr ("env:foo"))] ⟨true, ".html", "i18n:greet"⟩
      = runReplace (runReplace ⟨true, ".html", "i18n:greet"⟩
          (get_actual_env_content ("foo") [("foo", Val.vstr V)] none)
          (get_template_text .env ("foo")))
        (get_actual_i18n_content ("greet") [("greet", Val.vstr ("env:foo"))] none)
        (get_template_text .i18n ("greet")) from rfl]
  rw [show runReplace ⟨true, ".html", "i18n:greet"⟩
      (get_actual_env_content ("foo") [("foo", Val.vstr V)] none)
      (get_template_text .env ("foo")) = ⟨true, ".html", "i18n:greet"⟩ from rfl]
  rw [show runReplace ⟨true, ".html", "i18n:greet"⟩
      (get_actual_i18n_content ("greet") [("greet", Val.vstr ("env:foo"))] none)
      (get_template_text .i18n ("greet"))
      = ⟨true, ".html", pyReplace ("i18n:greet") ("i18n:greet") ("env:foo")⟩ from rfl]
  rw [pyReplace_i18n_token]

/-!
## Claims
-/

/-- C1, counterexample: the round-trip claim fails as stated. For the map
`{"a.b": "X"}` the flattener emits the dotted key `"a.b"`, but resolving
`"a.b"` splits it into two segments and returns the fallback `"FB"`, not
the leaf text `"X"`. -/
theorem c1_round_trip_cex :
    load_keys_core [("a.b", Val.vstr "X")] = ["a.b"] ∧
    get_actual_content ("a.b") (Val.vdict [("a.b", Val.vstr "X")]) ("FB") = "FB" ∧
    ("FB" : String) ≠ "X" := by
  refine ⟨?_, rfl, by decide⟩
  rw [load_keys_core_single_str]
  rfl

/-- C1, amended: for every nested map whose keys at every level are
non-empty, whitespace-stripped, dot-free and pairwise distinct per level,
and whose leaf values are not null, every key produced by `load_keys`
resolves through `get_actual_content` to the textual form of its original
leaf value, for every fallback (so never to the fallback branch). -/
theorem c1_round_trip_amended (m : List (String × Val)) (hwf : wfEntriesB m = true)
    (k : String) (hk : k ∈ load_keys_core m) :
    ∃ v, (k, v) ∈ collectVals [] m ∧ isLeafB v = true ∧
      ∀ fb, get_actual_content k (Val.vdict m) fb = pyStr v := by
  have hck : k ∈ collectKeys [] m := (mem_load_keys_core m k).mp hk
  obtain ⟨⟨k', v⟩, hmem, hfst⟩ := List.mem_map.mp hck
  have hkk : k' = k := hfst
  subst hkk
  obtain ⟨segs, hne, hwfsegs, hkeq, hlook, hleaf⟩ :=
    collectVals_sound [] m hwf (by simp) k' v hmem
  refine ⟨v, hmem, hleaf, fun fb => ?_⟩
  show resolve_args fb (split_key_by_dot k') (Val.vdict m) = pyStr v
  rw [hkeq]
  rw [show (([] : List String) ++ segs) = segs from rfl]
  rw [split_key_by_dot_joinDots segs hne hwfsegs]
  exact resolve_args_of_lookupPath_some segs (Val.vdict m) v fb hlook hleaf

/-- Witness for C1 (amended) at the map `{"a": {"b": "X"}}` and its key
`"a.b"`. -/
theorem c1_round_trip_amended_witness :
    wfEntriesB [("a", Val.vdict [("b", Val.vstr "X")])] = true ∧
    "a.b" ∈ load_keys_core [("a", Val.vdict [("b", Val.vstr "X")])] ∧
    ∃ v, ("a.b", v) ∈ collectVals [] [("a", Val.vdict [("b", Val.vstr "X")])] ∧
      isLeafB v = true ∧
      ∀ fb, get_actual_content ("a.b")
        (Val.vdict [("a", Val.vdict [("b", Val.vstr "X")])]) fb = pyStr v := by
  have hwf : wfEntriesB [("a", Val.vdict [("b", Val.vstr "X")])] = true := by decide
  have hk : "a.b" ∈ load_keys_core [("a", Val.vdict [("b", Val.vstr "X")])] := by
    rw [load_keys_core_ab]
    exact List.mem_singleton.mpr rfl
  exact ⟨hwf, hk, c1_round_trip_amended _ hwf _ hk⟩

/-- C2, counterexample: with language value `"env:foo"` for `greet`,
environment `{foo: "BAR"}`, and template text `"i18n:greet"`, the full
render of `main` (environment pass first, then language pass) leaves the
literal `"env:foo"` where the i18n token stood — not the environment's
resolved value `"BAR"` the claim requires. -/
theorem c2_ordering_cex :
    (main_render (load_keys_core [("foo", Val.vstr "BAR")]) [("foo", Val.vstr "BAR")]
      (load_keys_core [("greet", Val.vstr ("env:foo"))]) [("greet", Val.vstr ("env:foo"))]
      ⟨true, ".html", "i18n:greet"⟩).content = "env:foo" ∧
    ("env:foo" : String) ≠ "BAR" ∧
    get_actual_env_content ("foo") [("foo", Val.vstr "BAR")] none = "BAR" := by
  refine ⟨?_, by decide, rfl⟩
  rw [main_render_env_token_eval]

/-- C2, amended: because the environment pass runs before the language
pass, an environment placeholder token introduced into the file by a
language value is never substituted: after a full render the text standing
where the i18n token was is the literal language value `"env:foo"`, not
the environment's resolved value for `foo`. -/
theorem c2_ordering_amended (V : String) (hV : V ≠ "env:foo") :
    (main_render (load_keys_core [("foo", Val.vstr V)]) [("foo", Val.vstr V)]
      (load_keys_core [("greet", Val.vstr ("env:foo"))]) [("greet", Val.vstr ("env:foo"))]
      ⟨true, ".html", "i18n:greet"⟩).content = "env:foo" ∧
    (main_render (load_keys_core [("foo", Val.vstr V)]) [("foo", Val.vstr V)]
      (load_keys_core [("greet", Val.vstr ("env:foo"))]) [("greet", Val.vstr ("env:foo"))]
      ⟨true, ".html", "i18n:greet"⟩).content ≠ V ∧
    get_actual_env_content ("foo") [("foo", Val.vstr V)] none = V := by
  rw [main_render_env_token_eval]
  exact ⟨rfl, fun h => hV h.symm, rfl⟩

/-- Witness for C2 (amended) at the environment value `"BAR"`. -/
theorem c2_ordering_amended_witness :
    ("BAR" : String) ≠ "env:foo" ∧
    ((main_render (load_keys_core [("foo", Val.vstr "BAR")]) [("foo", Val.vstr "BAR")]
      (load_keys_core [("greet", Val.vstr ("env:foo"))]) [("greet", Val.vstr ("env:foo"))]
      ⟨true, ".html", "i18n:greet"⟩).content = "env:foo" ∧
    (main_render (load_keys_core [("foo", Val.vstr "BAR")]) [("foo", Val.vstr "BAR")]
      (load_keys_core [("greet", Val.vstr ("env:foo"))]) [("greet", Val.vstr ("env:foo"))]
      ⟨true, ".html", "i18n:greet"⟩).content ≠ "BAR" ∧
    get_actual_env_content ("foo") [("foo", Val.vstr "BAR")] none = "BAR") :=
  ⟨by decide, c2_ordering_amended "BAR" (by decide)⟩

/-- C3: the resolver is total by construction (the embedding is a total
function, mirroring the source's catch-all `try/except → fallback`), and
whenever the key's segment path does not exist in the data it returns the
supplied fallback unchanged. -/
theorem c3_resolver_totality (key : String) (data : Val) (fb : String)
    (h : lookupPath (split_key_by_dot key) data = none) :
    get_actual_content key data fb = fb :=
  resolve_args_of_lookupPath_none _ _ _ h

/-- Witness for C3 at the absent path `"a.c"`. -/
theorem c3_resolver_totality_witness :
    lookupPath (split_key_by_dot ("a.c"))
      (Val.vdict [("a", Val.vdict [("b", Val.vstr "X")])]) = none ∧
    get_actual_content ("a.c")
      (Val.vdict [("a", Val.vdict [("b", Val.vstr "X")])]) ("FB") = "FB" :=
  ⟨rfl, c3_resolver_totality ("a.c") (Val.vdict [("a", Val.vdict [("b", Val.vstr "X")])])
    ("FB") rfl⟩

/-- C4, counterexample: resolving the empty key against a dict does NOT
return the fallback: the segment list is empty, so the resolver
immediately applies the terminal coercion and returns `str(dict)` — the
dict's textual repr — instead of `"FB"`. -/
theorem c4_empty_key_cex :
    get_actual_content ("") (Val.vdict [("a", Val.vstr "X")]) ("FB") = "\x7b'a': 'X'\x7d" ∧
    ("\x7b'a': 'X'\x7d" : String) ≠ "FB" := by
  exact ⟨rfl, by decide⟩

/-- C4, amended: an empty or whitespace-only key does split into an empty
segment list, but the resolver then returns the textual coercion of the
whole mapping (`str(data)`), not the fallback — the fallback would be
returned only for a `None` value. -/
theorem c4_empty_key_amended :
    (∀ key : String, (∀ c ∈ key.data, c.isWhitespace = true) → split_key_by_dot key = []) ∧
    (∀ (key : String) (m : List (String × Val)) (fb : String),
      split_key_by_dot key = [] →
      get_actual_content key (Val.vdict m) fb = pyStr (Val.vdict m)) := by
  constructor
  · intro key hws
    rw [split_key_by_dot]
    by_cases hd : key.data = []
    · rw [if_pos hd]
    · rw [if_neg hd]
      have hstrip : pyStrip key.data = [] := pyStrip_nil_of_all_ws _ hws
      simp [hstrip]
  · intro key m fb hsplit
    show resolve_args fb (split_key_by_dot key) (Val.vdict m) = _
    rw [hsplit]
    rfl

/-- Witness for C4 (amended) at the whitespace key `" "` and the empty key. -/
theorem c4_empty_key_amended_witness :
    split_key_by_dot (" ") = [] ∧
    get_actual_content ("") (Val.vdict [("k", Val.vint 0)]) ("FB") =
      pyStr (Val.vdict [("k", Val.vint 0)]) :=
  ⟨c4_empty_key_amended.1 (" ") (by decide),
    c4_empty_key_amended.2 ("") [("k", Val.vint 0)] ("FB") rfl⟩

/-- C5: for every nested map, the key list returned by `load_keys` is
sorted in ascending lexicographic string order and contains no duplicate
entries. -/
theorem c5_flattener_sorted_nodup (m : List (String × Val)) :
    (load_keys_core m).Sorted (fun a b => a ≤ b) ∧ (load_keys_core m).Nodup :=
  ⟨load_keys_core_sorted m, load_keys_core_nodup m⟩

/-- C6: leafness is decided by type, not truthiness — a binding whose
value is falsy but not a mapping still yields its dotted key in the
flattened output, while a binding to an empty mapping contributes no keys
at all (neither in the traversal at any path nor in the final list). -/
theorem c6_leafness_by_type (m : List (String × Val)) (k : String) (v : Val)
    (path : List String) :
    ((k, v) ∈ m → isDictB v = false → pyTruthy v = false →
      merge_args_to_key [k] ∈ load_keys_core m) ∧
    collectVals path ((k, Val.vdict []) :: m) = collectVals path m ∧
    load_keys_core ((k, Val.vdict []) :: m) = load_keys_core m := by
  refine ⟨?_, ?_, ?_⟩
  · intro hmem hnd _
    rw [← merge_single_filter]
    rw [mem_load_keys_core]
    have hh := collectKeys_mem_of_leaf [] m k v hmem hnd
    simpa using hh
  · rfl
  · apply sorted_nodup_ext _ _ (load_keys_core_sorted _) (load_keys_core_sorted _)
      (load_keys_core_nodup _) (load_keys_core_nodup _)
    intro x
    rw [mem_load_keys_core, mem_load_keys_core]
    rw [show collectKeys [] ((k, Val.vdict []) :: m) = collectKeys [] m from rfl]

/-- Witness for C6 at the falsy string leaf `{"a": ""}`. -/
theorem c6_leafness_by_type_witness :
    ("a", Val.vstr "") ∈ [("a", Val.vstr "")] ∧
    merge_args_to_key ["a"] ∈ load_keys_core [("a", Val.vstr "")] := by
  refine ⟨List.mem_singleton.mpr rfl, ?_⟩
  exact (c6_leafness_by_type [("a", Val.vstr "")] ("a") (Val.vstr "") []).1
    (List.mem_singleton.mpr rfl) rfl rfl

/-- C7, Scenario A: flattening `{a: {b: "X"}}` yields exactly `["a.b"]`;
resolving `"a.b"` with fallback `"FB"` returns `"X"`; resolving `"a.c"`
returns `"FB"`. -/
theorem c7_scenario_a :
    load_keys_core [("a", Val.vdict [("b", Val.vstr "X")])] = ["a.b"] ∧
    get_actual_content ("a.b")
      (Val.vdict [("a", Val.vdict [("b", Val.vstr "X")])]) ("FB") = "X" ∧
    get_actual_content ("a.c")
      (Val.vdict [("a", Val.vdict [("b", Val.vstr "X")])]) ("FB") = "FB" :=
  ⟨load_keys_core_ab, rfl, rfl⟩

/-- C8: for every language identifier selected from the discovered set,
the output file name equals the template file name with the substring
`"template"` replaced by the identifier's portion before its first `.`
(`get_string_removed_dot_and_after` agrees with that portion because every
discovered identifier has a YAML suffix and hence contains a dot). -/
theorem c8_output_naming (entries : List (String × Bool)) (user_input : String)
    (h : user_input ∈ get_languages entries) :
    on_user_input_filename (get_languages entries) user_input =
      some (pyReplace HTML_TEMPLATE_FILE_NAME ("template")
        (String.mk (user_input.data.takeWhile (fun c => c ≠ '.')))) := by
  have hdot : '.' ∈ user_input.data :=
    pathSuffix_dot_mem user_input (mem_get_languages entries user_input h).2
  rw [on_user_input_filename, if_neg (not_not_intro h)]
  rw [get_string_eq_takeWhile user_input hdot]

/-- Witness for C8 at the listing `["zh.yml"]` and selection `"zh.yml"`:
the output file name is `index.zh.html`. -/
theorem c8_output_naming_witness :
    "zh.yml" ∈ get_languages [("zh.yml", true)] ∧
    on_user_input_filename (get_languages [("zh.yml", true)]) ("zh.yml") =
      some ("index.zh.html") := by
  have hg : get_languages [("zh.yml", true)] = sortStrings ["zh.yml"] := rfl
  have hg2 : get_languages [("zh.yml", true)] = ["zh.yml"] := by
    rw [hg, sortStrings_singleton]
  have hmem : "zh.yml" ∈ get_languages [("zh.yml", true)] := by
    rw [hg2]
    exact List.mem_singleton.mpr rfl
  refine ⟨hmem, ?_⟩
  rw [c8_output_naming [("zh.yml", true)] ("zh.yml") hmem]
  rw [show String.mk (("zh.yml" : String).data.takeWhile (fun c => c ≠ '.')) = "zh" from rfl]
  rw [show HTML_TEMPLATE_FILE_NAME = "index.template.html" from rfl]
  have hrep : pyReplace ("index.template.html") ("template") ("zh") = "index.zh.html" := by
    simp [pyReplace, replaceAux, List.isPrefixOf]
  rw [hrep]

/-- C9: calling `replace_text_in_file` on an existing file whose suffix
does not contain `html` (case-insensitively) without the override flag
exits the process with status 255 before any read or write; with the
override flag set the call proceeds to the normal read-replace-write. -/
theorem c9_non_html_guard (f : PyFile) (new_text old_text : String)
    (h1 : f.present = true)
    (h2 : isSubstrList ("html".data) (pyLower f.suffix).data = false) :
    replace_text_in_file f new_text old_text false = ReplaceOutcome.exit255 ∧
    replace_text_in_file f new_text old_text true =
      ReplaceOutcome.completed (if isSubstrList old_text.data f.content.data
        then { f with content := pyReplace f.content old_text new_text } else f) := by
  constructor
  · simp [replace_text_in_file, h1, h2]
  · cases hsub : isSubstrList old_text.data f.content.data with
    | true => simp [replace_text_in_file, h1, hsub]
    | false => simp [replace_text_in_file, h1, hsub]

/-- Witness for C9 at an existing `.txt` file. -/
theorem c9_non_html_guard_witness :
    replace_text_in_file ⟨true, ".txt", "hello env:x"⟩ ("NEW") ("env:x") false =
      ReplaceOutcome.exit255 ∧
    replace_text_in_file ⟨true, ".txt", "hello env:x"⟩ ("NEW") ("env:x") true =
      ReplaceOutcome.completed (if isSubstrList ("env:x" : String).data
          ("hello env:x" : String).data
        then { (⟨true, ".txt", "hello env:x"⟩ : PyFile) with
          content := pyReplace ("hello env:x") ("env:x") ("NEW") }
        else ⟨true, ".txt", "hello env:x"⟩) :=
  c9_non_html_guard ⟨true, ".txt", "hello env:x"⟩ ("NEW") ("env:x") rfl rfl

/-- C10: passing an explicitly supplied empty dict as the custom `data`
argument of `get_actual_env_content` / `get_actual_i18n_content` is a
truthiness test, not a `None` test: the key is resolved against the global
registry mapping, so a key present in the global mapping returns the
global value rather than the fallback. -/
theorem c10_empty_custom_dict (key : String) (env_map lang_map : List (String × Val)) :
    get_actual_env_content key env_map (some []) =
      get_actual_content key (Val.vdict env_map) (get_template_text .env key) ∧
    get_actual_i18n_content key lang_map (some []) =
      get_actual_content key (Val.vdict lang_map) (get_template_text .i18n key) ∧
    ∀ s, lookupPath (split_key_by_dot key) (Val.vdict env_map) = some (Val.vstr s) →
      get_actual_env_content key env_map (some []) = s := by
  refine ⟨rfl, rfl, fun s hs => ?_⟩
  show resolve_args (get_template_text .env key) (split_key_by_dot key)
    (Val.vdict env_map) = s
  exact resolve_args_of_lookupPath_some _ _ _ _ hs rfl

/-- Witness for C10: with global environment `{foo: "BAR"}` and an empty
custom dict, `"foo"` resolves to `"BAR"`. -/
theorem c10_empty_custom_dict_witness :
    get_actual_env_content ("foo") [("foo", Val.vstr "BAR")] (some []) = "BAR" :=
  (c10_empty_custom_dict ("foo") [("foo", Val.vstr "BAR")] []).2.2 "BAR" rfl
